import Mathlib

/-!
Verification of the ELIZA response-selection pipeline (eliza-rs).

The definitions below are a shallow embedding of `src/lib.rs`, `src/alphabet.rs`
and the data model of `src/script.rs`.  Strings are handled through their
character lists; the Rust `regex` crate is abstracted by an oracle (a
compilation predicate and a capture function), since the regex engine is an
external dependency of the program.  Randomness (`rand_fallback`) is likewise
abstracted by a selection oracle.  Logging (`info!`, `warn!`, `error!`) has no
observable effect on the values computed and is not modelled.
-/

namespace Eliza

/-! ## Character-level helpers (Rust `str` primitives) -/

/-- Rust `char::is_whitespace`, restricted to the ASCII whitespace that the
Lean `Char.isWhitespace` covers; all inputs in this development are ASCII. -/
def isWs (c : Char) : Bool := c.isWhitespace

/-- Rust `str::split` with a `char` predicate pattern: empty pieces are kept. -/
def splitWhen (p : Char → Bool) : List Char → List (List Char)
  | [] => [[]]
  | c :: cs =>
    if p c then [] :: splitWhen p cs
    else
      match splitWhen p cs with
      | [] => [[c]]
      | w :: ws => (c :: w) :: ws

/-- Substring occurrence test, as in Rust `str::contains` with a `&str` pattern. -/
def containsSeq (pat : List Char) : List Char → Bool
  | [] => pat.isEmpty
  | c :: cs => pat.isPrefixOf (c :: cs) || containsSeq pat cs

/-- Rust `str::split` with a non-empty `&str` pattern `c0 :: crest`
(leftmost, non-overlapping; empty pieces kept).  `fuel` bounds the number of
characters consumed; callers pass the length of the list, which the recursion
never exceeds, so the `0, l => [l]` row is never reached. -/
def splitOnSeqF (c0 : Char) (crest : List Char) : Nat → List Char → List (List Char)
  | _, [] => [[]]
  | 0, l => [l]
  | fuel + 1, c :: cs =>
    if (c0 :: crest).isPrefixOf (c :: cs) then
      [] :: splitOnSeqF c0 crest fuel (cs.drop crest.length)
    else
      match splitOnSeqF c0 crest fuel cs with
      | [] => [[c]]
      | w :: ws => (c :: w) :: ws

/-- One pass of Rust `str::replace` for a non-empty pattern `c0 :: crest`
(leftmost, non-overlapping).  `fuel` bounds the characters consumed; callers
pass the list length, which the recursion never exceeds. -/
def replaceSeqF (c0 : Char) (crest repl : List Char) : Nat → List Char → List Char
  | _, [] => []
  | 0, l => l
  | fuel + 1, c :: cs =>
    if (c0 :: crest).isPrefixOf (c :: cs) then
      repl ++ replaceSeqF c0 crest repl fuel (cs.drop crest.length)
    else
      c :: replaceSeqF c0 crest repl fuel cs

/-- Rust `str::replace` with a `&str` pattern.  An empty pattern matches at
every character boundary (split/join semantics of the Rust implementation). -/
def replaceAll (s pat repl : List Char) : List Char :=
  match pat with
  | [] => repl ++ s.flatMap (fun c => c :: repl)
  | c0 :: crest => replaceSeqF c0 crest repl s.length s

/-- Rust `str::trim`: whitespace removed at both ends (front first). -/
def trimChars (l : List Char) : List Char :=
  ((l.dropWhile isWs).reverse.dropWhile isWs).reverse

/-- Rust `str::replace(char::is_whitespace, "")`. -/
def removeWs (l : List Char) : List Char := l.filter (fun c => !(isWs c))

/-- Rust `str::replace('@', "")` and friends: a `char` pattern removes each
occurrence of that character. -/
def removeChar (l : List Char) (c : Char) : List Char := l.filter (fun x => x ≠ c)

/-- Number of occurrences of a character, as `str::matches(c).count()`. -/
def countChar (s : String) (c : Char) : Nat := (s.data.filter (fun x => x = c)).length

/-! ## `alphabet.rs` -/

/-- `ALPHABET_LOWER` of `alphabet.rs`. -/
def alphabetLower : List Char :=
  ['a','b','c','d','e','f','g','h','i','j','k','l','m',
   'n','o','p','q','r','s','t','u','v','w','x','y','z']

/-- `ALPHABET_UPPER` of `alphabet.rs`. -/
def alphabetUpper : List Char :=
  ['A','B','C','D','E','F','G','H','I','J','K','L','M',
   'N','O','P','Q','R','S','T','U','V','W','X','Y','Z']

/-- `NUMERIC` of `alphabet.rs`. -/
def numericChars : List Char := ['0','1','2','3','4','5','6','7','8','9']

/-- `Standard::find_position(c).is_some()`: membership in the two letter tables. -/
def standardHas (c : Char) : Bool := alphabetLower.contains c || alphabetUpper.contains c

/-- `Alphanumeric::find_position(c).is_some()`: letters or digits. -/
def alphanumericHas (c : Char) : Bool := standardHas c || numericChars.contains c

/-- `STANDARD.scrub`: keep only the characters found in the standard alphabet. -/
def scrubStandard (text : String) : String := String.mk (text.data.filter standardHas)

/-- `ALPHANUMERIC.scrub`: keep only letters and digits. -/
def scrubAlphanumeric (text : String) : String := String.mk (text.data.filter alphanumericHas)

/-- Rust `str::parse::<usize>()` on a scrubbed (letter/digit only) string:
succeeds exactly on non-empty all-digit strings.  (Machine-width overflow also
fails in Rust; the only consumer compares the result against a capture count,
so an overflowing literal is rejected on either path.) -/
def parseUsize (s : String) : Option Nat :=
  if s.data ≠ [] ∧ s.data.all (fun c => numericChars.contains c) then
    some (s.data.foldl (fun n c => 10 * n + (c.toNat - '0'.toNat)) 0)
  else none

/-! ## Script data model (`script.rs`) -/

/-- `script::Transform`. -/
structure Transform where
  word : String
  equivalents : List String
deriving DecidableEq

/-- `script::Synonym`. -/
structure Synonym where
  word : String
  equivalents : List String
deriving DecidableEq

/-- `script::Reflection`. -/
structure Reflection where
  word : String
  inverse : String
  twoway : Bool
deriving DecidableEq

/-- `script::Rule`. -/
structure Rule where
  memorise : Bool
  decomposition_rule : String
  reassembly_rules : List String
deriving DecidableEq

/-- `script::Keyword`.  `rank` is `u8` in the source; only its order is ever
used, so it is modelled as `Nat`. -/
structure Keyword where
  key : String
  rank : Nat
  rules : List Rule
deriving DecidableEq

/-- `script::Script` (the random-selection wrappers live on this struct). -/
structure Script where
  greetings : List String
  farewells : List String
  fallbacks : List String
  transforms : List Transform
  synonyms : List Synonym
  reflections : List Reflection
  keywords : List Keyword
deriving DecidableEq

/-! ## Free functions of `lib.rs` -/

/-- `get_words`: Rust `split_whitespace` (no empty pieces). -/
def get_words (phrase : String) : List String :=
  ((splitWhen isWs phrase.data).filter (fun w => w ≠ [])).map String.mk

/-- `get_phrases`: split on the literal `" but "`, then on `.`/`,`/`?`, then
trim each fragment (empty fragments kept). -/
def get_phrases (input : String) : List String :=
  ((splitOnSeqF ' ' "but ".data input.data.length input.data).flatMap
      (fun part => splitWhen (fun c => c = '.' || c = ',' || c = '?') part)).map
    (fun l => String.mk (trimChars l))

/-- `is_goto`: `None` if the statement does not contain `"GOTO"`, otherwise the
statement with `"GOTO"` and all whitespace removed. -/
def is_goto (statement : String) : Option String :=
  if containsSeq "GOTO".data statement.data then
    some (String.mk (removeWs (replaceAll statement.data "GOTO".data [])))
  else none

/-- `transform`: each equivalent replaced by its canonical word, in script order. -/
def transform (input : String) (transforms : List Transform) : String :=
  transforms.foldl
    (fun acc t =>
      t.equivalents.foldl
        (fun acc2 eqv => String.mk (replaceAll acc2.data eqv.data t.word.data)) acc)
    input

/-- The keywords pushed while scanning the words of one phrase
(the body of the inner loop of `populate_keystack`). -/
def collectKeywords (keywords : List Keyword) (phrase : String) : List Keyword :=
  (get_words phrase).filterMap (fun w => keywords.find? (fun k => k.key == w))

/-- Insertion into a rank-descending list, placing the new element before the
first strictly lower rank (so earlier elements win ties). -/
def insertDesc (k : Keyword) : List Keyword → List Keyword
  | [] => [k]
  | x :: xs => if x.rank ≤ k.rank then k :: x :: xs else x :: insertDesc k xs

/-- `keystack.sort_by(|a,b| b.rank.cmp(&a.rank))`: Rust `sort_by` is a stable
sort, and a stable sort under a total preorder has a unique result, here
computed by stable insertion sort. -/
def sortByRankDesc : List Keyword → List Keyword
  | [] => []
  | x :: xs => insertDesc x (sortByRankDesc xs)

/-- `populate_keystack`: first phrase containing any keyword wins; its matches
are collected and sorted by descending rank. -/
def populate_keystack (phrases : List String) (keywords : List Keyword) :
    Option String × List Keyword :=
  match phrases with
  | [] => (none, [])
  | p :: ps =>
    match collectKeywords keywords p with
    | [] => populate_keystack ps keywords
    | k :: ks => (some p, sortByRankDesc (k :: ks))

/-- Word-level reflection: the body of the loop in `reflect`.  The source's
final `else` branch logs an error and appends nothing; it is unreachable for
entries returned by `find?`. -/
def reflectWord (reflections : List Reflection) (w : String) : String :=
  match reflections.find? (fun r => r.word == w || (r.twoway && r.inverse == w)) with
  | some r =>
    if r.word == w then r.inverse
    else if r.twoway && r.inverse == w then r.word
    else ""
  | none => w

/-- `reflect`: each word reflected, a space pushed after each, result trimmed. -/
def reflect (input : String) (reflections : List Reflection) : String :=
  String.mk (trimChars
    ((get_words input).flatMap (fun w => (reflectWord reflections w).data ++ [' '])))

/-- Result of `assemble`.  `panicked` records that the source indexes
`captures[n]` for a group that does not exist, which aborts the Rust program. -/
inductive AsmResult
  | ok (response : String)
  | fail
  | panicked
deriving DecidableEq

/-- The word loop of `assemble`.  `captures` lists the matched groups with the
whole match at index 0, as in `regex::Captures` (`captures.len()` counts the
whole match). -/
def asmLoop (captures : List String) (reflections : List Reflection) :
    List String → List Char → AsmResult
  | [], temp => .ok (String.mk temp)
  | w :: ws, temp =>
    if containsSeq ['$'] w.data then
      match parseUsize (scrubAlphanumeric w) with
      | some n =>
        if n < captures.length + 1 then
          match captures.get? n with
          | some cap =>
            asmLoop captures reflections ws
              (replaceAll
                (replaceAll temp (scrubAlphanumeric w).data (reflect cap reflections).data)
                ['$'] [])
          | none => .panicked
        else .fail
      | none => .fail
    else asmLoop captures reflections ws temp

/-- `assemble`: walk the whitespace words of the rule, substituting each
`$`-word by the reflected capture it names. -/
def assemble (rule : String) (captures : List String) (reflections : List Reflection) :
    AsmResult :=
  asmLoop captures reflections (get_words rule) rule.data

/-- The permutation strings built by `permutations` before regex compilation. -/
def permStrings (decomposition : String) (synonyms : List Synonym) : List String :=
  if countChar decomposition '@' > 1 then []
  else
    (if countChar decomposition '@' = 0 then [decomposition]
     else [String.mk (removeChar decomposition.data '@')]) ++
    (get_words decomposition).flatMap (fun w =>
      if containsSeq ['@'] w.data then
        match synonyms.find? (fun s => s.word == scrubStandard w) with
        | some syn =>
          syn.equivalents.map (fun eqv =>
            String.mk (removeChar (replaceAll decomposition.data (scrubStandard w).data eqv.data) '@'))
        | none => []
      else [])

/-- `permutations`: the permutation strings whose regexes compile; a regex is
modelled by its source string, compilation by the oracle `compiles`. -/
def permutations (decomposition : String) (synonyms : List Synonym)
    (compiles : String → Bool) : List String :=
  (permStrings decomposition synonyms).filter compiles

/-! ## Engine state and `get_reassembly` -/

/-- `rule_usage: HashMap<String, usize>` modelled as an association list with
at most one entry per key (lookups take the first). -/
abbrev Usage := List (String × Nat)

/-- `HashMap::contains_key` / indexing. -/
def lookupU (m : Usage) (k : String) : Option Nat :=
  (m.find? (fun p => p.1 == k)).map (fun p => p.2)

/-- `HashMap::insert` for a key known to be absent. -/
def insertU (m : Usage) (k : String) (v : Nat) : Usage := m ++ [(k, v)]

/-- `HashMap::get_mut` followed by an increment (first entry with the key). -/
def bumpU : Usage → String → Usage
  | [], _ => []
  | (k2, v) :: rest, k => if k2 = k then (k2, v + 1) :: rest else (k2, v) :: bumpU rest k

/-- The scan loop of `get_reassembly`: `best`/`count` are the running best rule
and its usage; an unused key breaks immediately after inserting count 0. -/
def grLoop (id : String) (usage : Usage) :
    List String → Option String → Option Nat → Option String × Usage
  | [], best, _ => (best, usage)
  | rule :: rest, best, count =>
    match lookupU usage (id ++ rule) with
    | some u =>
      match count with
      | some c =>
        if u < c then grLoop id usage rest (some rule) (some u)
        else grLoop id usage rest best count
      | none => grLoop id usage rest (some rule) (some u)
    | none => (some rule, insertU usage (id ++ rule) 0)

/-- `get_reassembly`: scan for the best template, then increment its count. -/
def get_reassembly (id : String) (rules : List String) (usage : Usage) :
    Option String × Usage :=
  match grLoop id usage rules none none with
  | (some best, u2) => (some best, bumpU u2 (id ++ best))
  | (none, u2) => (none, u2)

/-! ## The search loop (`get_response`) and `respond` -/

/-- The mutable fields of the `Eliza` struct. -/
structure EngState where
  memory : List String
  rule_usage : Usage
deriving DecidableEq

/-- Outcome of processing the rules of one keyword: a response (breaks the
whole search), a `GOTO` keyword (breaks the rules loop), exhaustion, or a
Rust panic surfaced from `assemble`. -/
inductive InnerRes
  | foundR (s : String) (st : EngState)
  | gotoR (kw : Keyword) (st : EngState)
  | doneR (st : EngState)
  | panicR
deriving DecidableEq

/-- The regex engine and random selection abstracted: `compiles` says whether
`Regex::new` succeeds on a pattern, `capturesOf pat phrase` returns the capture
groups (whole match first) when the regex matches. -/
structure Oracle where
  compiles : String → Bool
  capturesOf : String → String → Option (List String)

/-- The `for re in regexes` loop of `get_response` for one rule. -/
def procRegexes (o : Oracle) (script : Script) (phrase : String) (r : Rule) :
    List String → EngState → InnerRes
  | [], st => .doneR st
  | re :: rest, st =>
    match o.capturesOf re phrase with
    | none => procRegexes o script phrase r rest st
    | some cap =>
      match get_reassembly r.decomposition_rule r.reassembly_rules st.rule_usage with
      | (none, u2) => procRegexes o script phrase r rest { st with rule_usage := u2 }
      | (some assem, u2) =>
        match is_goto assem with
        | some g =>
          match script.keywords.find? (fun a => a.key == g) with
          | some entry => .gotoR entry { st with rule_usage := u2 }
          | none => procRegexes o script phrase r rest { st with rule_usage := u2 }
        | none =>
          match assemble assem cap script.reflections with
          | .panicked => .panicR
          | .fail => procRegexes o script phrase r rest { st with rule_usage := u2 }
          | .ok s =>
            if r.memorise then
              procRegexes o script phrase r rest { memory := st.memory ++ [s], rule_usage := u2 }
            else .foundR s { st with rule_usage := u2 }

/-- The `for r in next.rules` loop of `get_response`. -/
def procRules (o : Oracle) (script : Script) (phrase : String) :
    List Rule → EngState → InnerRes
  | [], st => .doneR st
  | r :: rs, st =>
    match procRegexes o script phrase r
        (permutations r.decomposition_rule script.synonyms o.compiles) st with
    | .doneR st2 => procRules o script phrase rs st2
    | other => other

/-- Outcome of the keystack search.  `fuelOut` marks exhaustion of the loop
bound: the source's `while` loop has no such bound, so a cyclic `GOTO` script
diverges where this model returns `fuelOut`. -/
inductive SearchResult
  | found (s : String)
  | noResponse
  | panicked
  | fuelOut
deriving DecidableEq

/-- The `'search` `while` loop of `get_response`; `fuel` bounds its iterations. -/
def searchLoop (o : Oracle) (script : Script) (phrase : String) :
    Nat → List Keyword → EngState → SearchResult × EngState
  | 0, _, st => (.fuelOut, st)
  | _ + 1, [], st => (.noResponse, st)
  | fuel + 1, next :: rest, st =>
    match procRules o script phrase next.rules st with
    | .foundR s st2 => (.found s, st2)
    | .gotoR kw st2 => searchLoop o script phrase fuel (kw :: rest) st2
    | .doneR st2 => searchLoop o script phrase fuel rest st2
    | .panicR => (.panicked, st)

/-- Result of one `respond` turn. -/
inductive RespondResult
  | ok (s : String)
  | panicked
  | fuelOut
deriving DecidableEq

/-- The memory / fallback tail of `respond`: pop the front of the memory
queue, else a fallback picked by the oracle, else the literal "Go on.". -/
def memOrFallback (pick : List String → Option String) (script : Script)
    (st : EngState) : RespondResult × EngState :=
  match st.memory with
  | m :: ms => (.ok m, { st with memory := ms })
  | [] =>
    match pick script.fallbacks with
    | some f => (.ok f, st)
    | none => (.ok "Go on.", st)

/-- Rust `str::to_lowercase` (ASCII fragment). -/
def toLowerString (s : String) : String := String.mk (s.data.map Char.toLower)

/-- `respond`: normalize, segment, build the keystack, search, then fall back
to memory / fallbacks.  `pick` models `rand_fallback` (uniform selection from
a non-empty list, `none` on an empty one). -/
def respond (o : Oracle) (pick : List String → Option String) (script : Script)
    (fuel : Nat) (input : String) (st : EngState) : RespondResult × EngState :=
  let phrases := get_phrases (transform (toLowerString input) script.transforms)
  match populate_keystack phrases script.keywords with
  | (some phrase, keystack) =>
    match searchLoop o script phrase fuel keystack st with
    | (.found s, st2) => (.ok s, st2)
    | (.noResponse, st2) => memOrFallback pick script st2
    | (.panicked, st2) => (.panicked, st2)
    | (.fuelOut, st2) => (.fuelOut, st2)
  | (none, _) => memOrFallback pick script st

/-! ## Specification-side definitions (for refinement statements) -/

/-- Word-level reflection as §4.4.c of the spec words it: the first entry with
`word == w` or `twoway && inverse == w` decides; no other case exists. -/
def reflectWordSpec (reflections : List Reflection) (w : String) : String :=
  match reflections.find? (fun r => r.word == w || (r.twoway && r.inverse == w)) with
  | some r => if r.word == w then r.inverse else r.word
  | none => w

/-- `reflect` as the spec words it: reflected words joined by single spaces,
leading/trailing whitespace trimmed. -/
def reflect_spec (input : String) (reflections : List Reflection) : String :=
  String.mk (trimChars
    ((((get_words input).map (fun w => (reflectWordSpec reflections w).data)).intersperse
        [' ']).flatten))

/-- `t` is the template with the minimal count, ties broken by declaration
order: every earlier template has a strictly larger count. -/
def isFirstMin (cnt : String → Nat) (rules : List String) (t : String) : Prop :=
  (∀ r ∈ rules, cnt t ≤ cnt r) ∧
  ∃ pre post, rules = pre ++ t :: post ∧ ∀ r ∈ pre, cnt t < cnt r

/-- Running first-seen minimum (the all-keys-present branch of the
`get_reassembly` scan, with the stored counts abstracted as `cnt`). -/
def firstMinAcc (cnt : String → Nat) (b : String) : List String → String
  | [] => b
  | r :: rs => if cnt r < cnt b then firstMinAcc cnt r rs else firstMinAcc cnt b rs

/-! ## Concrete scenarios used by closed theorems and witnesses -/

/-- A fallback selector satisfying the `rand_fallback` contract. -/
def headPick (l : List String) : Option String := l.head?

/-- Oracle for the unknown-`GOTO` scenario: only the pattern `"d"` matches the
phrase `"p"`, with no explicit capture groups. -/
def oracleC3 : Oracle where
  compiles := fun _ => true
  capturesOf := fun pat phrase => if pat = "d" && phrase = "p" then some ["p"] else none

/-- A keyword whose matching rule selects `GOTO nosuch` first, with a plain
second template. -/
def kwC3 : Keyword := ⟨"x", 0, [⟨false, "d", ["GOTO nosuch", "Good"]⟩]⟩

/-- Script for the unknown-`GOTO` scenario. -/
def scriptC3 : Script := ⟨[], [], [], [], [], [], [kwC3]⟩

/-- Keyword `b` with a plain rule. -/
def kwB : Keyword := ⟨"b", 0, [⟨false, "db", ["Hi"]⟩]⟩

/-- Keyword `a` whose rule redirects to `b`. -/
def kwA : Keyword := ⟨"a", 1, [⟨false, "da", ["GOTO b"]⟩]⟩

/-- Oracle for the known-`GOTO` scenario: both rules match the phrase `"p"`. -/
def oracleAB : Oracle where
  compiles := fun _ => true
  capturesOf := fun pat phrase =>
    if (pat = "da" || pat = "db") && phrase = "p" then some ["p"] else none

/-- Script for the known-`GOTO` scenario. -/
def scriptAB : Script := ⟨[], [], [], [], [], [], [kwA, kwB]⟩

/-- A keyword whose template's back-reference `$3` exceeds the two capture
groups of its decomposition rule by exactly one. -/
def kwPanic : Keyword :=
  ⟨"you", 0, [⟨false, "(.*) you are (.*)", ["What makes you think I am $3 ?"]⟩]⟩

/-- Script for the off-by-one back-reference scenario. -/
def scriptPanic : Script := ⟨[], [], [], [], [], [], [kwPanic]⟩

/-- Oracle for the off-by-one back-reference scenario: the decomposition rule
`"(.*) you are (.*)"` matches the lowercased input with two capture groups
(`captures.len()` is 3, the whole match included). -/
def oraclePanic : Oracle where
  compiles := fun _ => true
  capturesOf := fun pat phrase =>
    if pat = "(.*) you are (.*)" && phrase = "i think that you are so stupid" then
      some ["i think that you are so stupid", "i think that", "so stupid"]
    else none

/-- A script with no keywords and two fallbacks. -/
def scriptPlain : Script := ⟨[], [], ["fb1", "fb2"], [], [], [], []⟩

/-- An oracle under which no regex matches. -/
def oracleNone : Oracle where
  compiles := fun _ => true
  capturesOf := fun _ _ => none

/-! ## Helper lemmas -/

theorem headPick_mem (l : List String) (x : String) (h : headPick l = some x) : x ∈ l := by
  cases l with
  | nil => simp [headPick] at h
  | cons a as =>
    simp [headPick] at h
    simp [h]

theorem containsSeq_singleton (a : Char) (l : List Char) :
    containsSeq [a] l = true ↔ a ∈ l := by
  induction l with
  | nil => simp [containsSeq]
  | cons c cs ih =>
    simp [containsSeq, List.isPrefixOf, ih, List.mem_cons]

theorem splitWhen_ne_nil (p : Char → Bool) (l : List Char) : splitWhen p l ≠ [] := by
  cases l with
  | nil => simp [splitWhen]
  | cons c cs =>
    simp only [splitWhen]
    split
    · simp
    · split <;> simp

theorem flatten_splitWhen (p : Char → Bool) (l : List Char) :
    (splitWhen p l).flatten = l.filter (fun c => !p c) := by
  induction l with
  | nil => simp [splitWhen]
  | cons c cs ih =>
    by_cases h : p c
    · simp [splitWhen, h, ih]
    · simp only [splitWhen, h, Bool.false_eq_true, if_false]
      cases hs : splitWhen p cs with
      | nil => exact absurd hs (splitWhen_ne_nil p cs)
      | cons w ws =>
        have : (w :: ws).flatten = cs.filter (fun c => !p c) := by rw [← hs, ih]
        simp only [List.flatten_cons] at this
        simp [List.filter_cons, h, List.flatten_cons, this]

theorem mem_chars_of_mem_get_words {s w : String} (hw : w ∈ get_words s) {c : Char}
    (hc : c ∈ w.data) : c ∈ s.data := by
  unfold get_words at hw
  rcases List.mem_map.mp hw with ⟨piece, hpf, hmk⟩
  rcases List.mem_filter.mp hpf with ⟨hpmem, -⟩
  have hcp : c ∈ piece := by
    have : (String.mk piece).data = piece := rfl
    rw [← hmk] at hc
    simpa [this] using hc
  have : c ∈ (splitWhen isWs s.data).flatten := List.mem_flatten_of_mem hpmem hcp
  rw [flatten_splitWhen] at this
  exact (List.mem_filter.mp this).1

theorem exists_word_of_mem_chars {s : String} {c : Char} (hc : c ∈ s.data)
    (hws : isWs c = false) : ∃ w ∈ get_words s, c ∈ w.data := by
  have hcf : c ∈ s.data.filter (fun c => !isWs c) := by
    refine List.mem_filter.mpr ⟨hc, by simp [hws]⟩
  rw [← flatten_splitWhen] at hcf
  rcases List.mem_flatten.mp hcf with ⟨piece, hpmem, hcp⟩
  refine ⟨String.mk piece, ?_, hcp⟩
  unfold get_words
  refine List.mem_map.mpr ⟨piece, List.mem_filter.mpr ⟨hpmem, ?_⟩, rfl⟩
  have : piece ≠ [] := by rintro rfl; simp at hcp
  simpa using this

theorem countChar_eq_zero_not_mem {d : String} {c : Char} (h : countChar d c = 0) :
    c ∉ d.data := by
  intro hc
  unfold countChar at h
  rw [List.length_eq_zero] at h
  have : c ∈ d.data.filter (fun x => x = c) := List.mem_filter.mpr ⟨hc, by simp⟩
  rw [h] at this
  simp at this

theorem not_mem_replaceSeqF_self (c : Char) :
    ∀ (fuel : Nat) (l : List Char), l.length ≤ fuel → c ∉ replaceSeqF c [] [] fuel l := by
  intro fuel
  induction fuel with
  | zero =>
    intro l hl
    have : l = [] := List.length_eq_zero.mp (Nat.le_zero.mp hl)
    subst this
    simp [replaceSeqF]
  | succ n ih =>
    intro l hl
    cases l with
    | nil => simp [replaceSeqF]
    | cons c2 cs =>
      simp only [replaceSeqF]
      split
      · rename_i hpre
        simp only [List.drop_zero, List.nil_append]
        exact ih cs (by simpa using hl)
      · rename_i hpre
        have hne : c ≠ c2 := by
          intro h
          subst h
          simp [List.isPrefixOf] at hpre
        intro hmem
        rcases List.mem_cons.mp hmem with h | h
        · exact hne h
        · exact ih cs (by simpa using hl) h

theorem not_mem_removeDollarChar (c : Char) (l : List Char) : c ∉ replaceAll l [c] [] :=
  not_mem_replaceSeqF_self c l.length l (le_refl _)

theorem asmLoop_ok_no_dollar (captures : List String) (reflections : List Reflection) :
    ∀ (ws : List String) (temp : List Char) (s : String),
      asmLoop captures reflections ws temp = .ok s →
      '$' ∉ s.data ∨ (s = String.mk temp ∧ ∀ w ∈ ws, containsSeq ['$'] w.data = false) := by
  intro ws
  induction ws with
  | nil =>
    intro temp s h
    simp only [asmLoop, AsmResult.ok.injEq] at h
    right
    exact ⟨h.symm, by simp⟩
  | cons w ws ih =>
    intro temp s h
    simp only [asmLoop] at h
    by_cases hc : containsSeq ['$'] w.data
    · rw [if_pos hc] at h
      cases hp : parseUsize (scrubAlphanumeric w) with
      | none => rw [hp] at h; exact absurd h (by simp)
      | some n =>
        rw [hp] at h
        dsimp only at h
        by_cases hn : n < captures.length + 1
        · rw [if_pos hn] at h
          cases hg : captures.get? n with
          | none => rw [hg] at h; exact absurd h (by simp)
          | some cap =>
            rw [hg] at h
            dsimp only at h
            rcases ih _ s h with h2 | ⟨rfl, -⟩
            · exact Or.inl h2
            · exact Or.inl (not_mem_removeDollarChar '$' _)
        · rw [if_neg hn] at h; exact absurd h (by simp)
    · rw [if_neg hc] at h
      rcases ih temp s h with h2 | ⟨hs, hall⟩
      · exact Or.inl h2
      · refine Or.inr ⟨hs, ?_⟩
        intro w2 hw2
        rcases List.mem_cons.mp hw2 with rfl | hmem
        · simpa using hc
        · exact hall w2 hmem

/-! ## Claim theorems -/

/-- C1 (code_bug): the claim (and the spec) say that whenever a template
back-reference index `n` exceeds the number `G` of capture groups of the
matched regex — including `n = G + 1` — `assemble` recoverably returns no
response and `respond` never fails.  The code's bound check is
`n < captures.len() + 1`, but `captures.len()` already counts the whole match
(group 0), so `n = G + 1` passes the check and `&captures[n]` panics; only
`n ≥ G + 2` takes the recoverable path.  Below `G = 2` (`captures.len() = 3`):
`$3` panics where the claim requires a recoverable failure, `$4` fails
recoverably, and the panic propagates through `respond`. -/
theorem C1_backreference_offbyone_panics :
    assemble "What makes you think I am $3 ?"
        ["i think that you are so stupid", "i think that", "so stupid"] [] = .panicked ∧
    assemble "What makes you think I am $4 ?"
        ["i think that you are so stupid", "i think that", "so stupid"] [] = .fail ∧
    (respond oraclePanic headPick scriptPanic 3 "I think that you are so stupid"
        ⟨[], []⟩).1 = .panicked := by
  decide

/-- C6: segmentation splits on the literal " but ", then on any of `.`, `,`,
`?`, trims each fragment and preserves empty fragments in order; the claim's
example yields a trailing empty string from the final `?`, and a second
example exercises the " but " connector. -/
theorem C6_segmentation :
    get_phrases "Hello how are you, you look good. Let me know what you think,of me?" =
      ["Hello how are you", "you look good", "Let me know what you think", "of me", ""] ∧
    get_phrases "i love you but you hate me. so?" =
      ["i love you", "you hate me", "so", ""] := by
  decide

/-- C8 counterexample: the claim says the token `$2a` parses as integer 2
rather than making assembly fail; in the code `ALPHANUMERIC.scrub` keeps
letters as well as digits, so the token scrubs to "2a", `parse::<usize>()`
fails, and `assemble` returns no response (`.fail`). -/
theorem C8_counterexample_dollar2a :
    assemble "What makes you think I am $2a"
      ["i think that you are so stupid", "i think that", "so stupid"] [] = .fail := by
  decide

/-- C8 (amended): capture-index parsing extracts the alphanumeric characters
of a `$` token and parses the whole scrubbed token as the 1-based group
index: `$2?` scrubs to "2", yields index 2 and is substituted with capture
group 2; `$2a` scrubs to "2a", which fails integer parsing, so assembly
fails (returns no response) rather than parsing as 2. -/
theorem C8_capture_index_parsing :
    scrubAlphanumeric "$2?" = "2" ∧
    assemble "What makes you think I am $2?"
        ["i think that you are so stupid", "i think that", "so stupid"] [] =
      .ok "What makes you think I am so stupid?" ∧
    scrubAlphanumeric "$2a" = "2a" ∧
    parseUsize "2a" = none ∧
    assemble "What makes you think I am $2a"
        ["i think that you are so stupid", "i think that", "so stupid"] [] = .fail := by
  decide

/-- C3 counterexample: the claim says that when a matched rule selects a
`GOTO k` template with `k` unknown, "the search continues with the next
template".  Here the rule's templates are ["GOTO nosuch", "Good"], its only
regex matches, and `nosuch` is undefined: the source `continue`s the regex
permutation loop instead of reconsidering the remaining templates, so the
search yields no response rather than the next template's response "Good". -/
theorem C3_counterexample_unknown_goto :
    (searchLoop oracleC3 scriptC3 "p" 3 [kwC3] ⟨[], []⟩).1 = .noResponse ∧
    (searchLoop oracleC3 scriptC3 "p" 3 [kwC3] ⟨[], []⟩).1 ≠ .found "Good" := by
  decide

/-- C10: after a successful `$n` substitution the whole evolving template has
been passed through `.replace(&n_digits, reflected_capture).replace("$", "")`,
so digit occurrences of `n` outside the token are rewritten as well and every
`'$'` is deleted; consequently no response ever returned by `assemble`
contains `'$'` (the deletion follows the capture insertion, so even a capture
containing `'$'` is scrubbed), and in the example the literal digit `2` of
"2 more" is rewritten by the capture text. -/
theorem C10_dollar_substitution :
    (∀ (rule : String) (captures : List String) (reflections : List Reflection) (s : String),
      assemble rule captures reflections = .ok s → '$' ∉ s.data) ∧
    assemble "$2 and 2 more" ["w", "a", "X"] [] = .ok "X and X more" := by
  constructor
  · intro rule captures reflections s h
    rcases asmLoop_ok_no_dollar captures reflections (get_words rule) rule.data s h with
      h2 | ⟨hs, hall⟩
    · exact h2
    · intro hmem
      have hrule : s = rule := hs
      rw [hrule] at hmem
      rcases exists_word_of_mem_chars hmem (by decide) with ⟨w, hw, hcw⟩
      have := hall w hw
      rw [← containsSeq_singleton '$' w.data] at hcw
      rw [this] at hcw
      exact Bool.false_ne_true hcw
  · decide

/-- C10 witness: the general no-dollar consequence evaluated at the concrete
substitution example. -/
theorem C10_dollar_substitution_witness : '$' ∉ ("X and X more" : String).data :=
  C10_dollar_substitution.1 "$2 and 2 more" ["w", "a", "X"] [] "X and X more" (by decide)

theorem dropWhile_append_of_eq_nil {p : Char → Bool} {l m : List Char}
    (h : l.dropWhile p = []) : (l ++ m).dropWhile p = m.dropWhile p := by
  induction l with
  | nil => simp
  | cons c cs ih =>
    by_cases hc : p c
    · simp only [List.dropWhile_cons, hc, if_true] at h
      simp only [List.cons_append, List.dropWhile_cons, hc, if_true]
      exact ih h
    · simp [List.dropWhile_cons, hc] at h

theorem dropWhile_append_of_ne_nil {p : Char → Bool} {l m : List Char}
    (h : l.dropWhile p ≠ []) : (l ++ m).dropWhile p = l.dropWhile p ++ m := by
  induction l with
  | nil => simp at h
  | cons c cs ih =>
    by_cases hc : p c
    · simp only [List.dropWhile_cons, hc, if_true] at h
      simp only [List.cons_append, List.dropWhile_cons, hc, if_true]
      exact ih h
    · simp [List.dropWhile_cons, hc]

theorem trimChars_append_space (l : List Char) : trimChars (l ++ [' ']) = trimChars l := by
  unfold trimChars
  by_cases h : l.dropWhile isWs = []
  · rw [dropWhile_append_of_eq_nil h, h]
    simp [List.dropWhile, isWs]
  · rw [dropWhile_append_of_ne_nil h]
    rw [List.reverse_append]
    simp [List.dropWhile_cons, isWs]

theorem flatMap_space_eq_intersperse :
    ∀ (a : List Char) (ls : List (List Char)),
      (a :: ls).flatMap (fun x => x ++ [' ']) = ((a :: ls).intersperse [' ']).flatten ++ [' '] := by
  intro a ls
  induction ls generalizing a with
  | nil => simp
  | cons b rest ih =>
    rw [List.flatMap_cons, ih b, List.intersperse_cons_cons]
    simp [List.append_assoc]

theorem reflectWord_eq_spec (reflections : List Reflection) (w : String) :
    reflectWord reflections w = reflectWordSpec reflections w := by
  unfold reflectWord reflectWordSpec
  cases hf : reflections.find? (fun r => r.word == w || (r.twoway && r.inverse == w)) with
  | none => rfl
  | some r =>
    have hp := List.find?_some hf
    by_cases h1 : (r.word == w) = true
    · simp [h1]
    · rw [Bool.not_eq_true] at h1
      rw [h1] at hp
      simp only [Bool.false_or] at hp
      simp [h1, hp]

/-- C9: `reflect` refines the spec's description — split on whitespace, let
the first reflection entry with `word == w` or `twoway && inverse == w`
decide (emitting `inverse`, `word`, or `w` unchanged respectively), join
with single spaces and trim (the source appends a space after every word and
trims the trailing one away) — and the two-way example swaps "i" and "you". -/
theorem C9_reflection :
    (∀ (input : String) (reflections : List Reflection),
      reflect input reflections = reflect_spec input reflections) ∧
    reflect "i you i" [⟨"i", "you", true⟩] = "you i you" := by
  constructor
  · intro input reflections
    unfold reflect reflect_spec
    have hmap : (get_words input).flatMap (fun w => (reflectWord reflections w).data ++ [' ']) =
        ((get_words input).map (fun w => (reflectWordSpec reflections w).data)).flatMap
          (fun x => x ++ [' ']) := by
      rw [List.flatMap_map]
      apply List.flatMap_congr
      intro w _
      rw [reflectWord_eq_spec]
    rw [hmap]
    cases hws : (get_words input).map (fun w => (reflectWordSpec reflections w).data) with
    | nil => simp
    | cons a ls =>
      rw [flatMap_space_eq_intersperse, trimChars_append_space]
  · decide

theorem flatMap_eq_nil_of_forall {α β : Type} {l : List α} {f : α → List β}
    (h : ∀ x ∈ l, f x = []) : l.flatMap f = [] := by
  induction l with
  | nil => rfl
  | cons a as ih =>
    rw [List.flatMap_cons, h a (by simp), List.nil_append]
    exact ih (fun x hx => h x (by simp [hx]))

theorem flatMap_eq_filter_flatMap {α β : Type} {p : α → Bool} {l : List α} {f : α → List β}
    (hf : ∀ x ∈ l, p x = false → f x = []) : l.flatMap f = (l.filter p).flatMap f := by
  induction l with
  | nil => rfl
  | cons a as ih =>
    rw [List.flatMap_cons, List.filter_cons]
    by_cases hp : p a
    · rw [if_pos hp, List.flatMap_cons, ih (fun x hx h => hf x (by simp [hx]) h)]
    · rw [if_neg hp, hf a (by simp) (by simpa using hp), List.nil_append,
        ih (fun x hx h => hf x (by simp [hx]) h)]

/-- C4: given that every produced permutation compiles, a decomposition rule
with no `@` yields exactly the rule itself; a rule with a single `@` (one
`@`-marked word) whose letters-only stem names a synonym head yields the
`@`-stripped base rule plus one regex per equivalent (with the stem literally
replaced); a rule with more than one `@` anywhere yields zero regexes. -/
theorem C4_permutation_counts (d : String) (synonyms : List Synonym)
    (compiles : String → Bool)
    (hall : ∀ p ∈ permStrings d synonyms, compiles p = true) :
    (countChar d '@' = 0 → permutations d synonyms compiles = [d]) ∧
    (∀ (w : String) (syn : Synonym),
      countChar d '@' = 1 →
      (get_words d).filter (fun x => containsSeq ['@'] x.data) = [w] →
      synonyms.find? (fun s => s.word == scrubStandard w) = some syn →
      permutations d synonyms compiles =
        String.mk (removeChar d.data '@') ::
          syn.equivalents.map (fun eqv =>
            String.mk (removeChar (replaceAll d.data (scrubStandard w).data eqv.data) '@'))) ∧
    (countChar d '@' > 1 → permutations d synonyms compiles = []) := by
  have hperm : permutations d synonyms compiles = permStrings d synonyms :=
    List.filter_eq_self.mpr hall
  refine ⟨?_, ?_, ?_⟩
  · intro h0
    rw [hperm]
    unfold permStrings
    rw [if_neg (by omega), if_pos h0]
    have hnil : (get_words d).flatMap (fun w =>
        if containsSeq ['@'] w.data = true then
          match synonyms.find? (fun s => s.word == scrubStandard w) with
          | some syn =>
            syn.equivalents.map (fun eqv =>
              String.mk (removeChar (replaceAll d.data (scrubStandard w).data eqv.data) '@'))
          | none => []
        else []) = [] := by
      apply flatMap_eq_nil_of_forall
      intro w hw
      have hnc : containsSeq ['@'] w.data ≠ true := by
        intro hc
        exact countChar_eq_zero_not_mem h0
          (mem_chars_of_mem_get_words hw ((containsSeq_singleton '@' w.data).mp hc))
      rw [if_neg hnc]
    rw [hnil]
    rfl
  · intro w syn h1 hw hfind
    rw [hperm]
    unfold permStrings
    rw [if_neg (by omega), if_neg (by omega)]
    have hpw : containsSeq ['@'] w.data = true := by
      have : w ∈ (get_words d).filter (fun x => containsSeq ['@'] x.data) := by
        rw [hw]; simp
      exact (List.mem_filter.mp this).2
    have hflat : (get_words d).flatMap (fun x =>
        if containsSeq ['@'] x.data = true then
          match synonyms.find? (fun s => s.word == scrubStandard x) with
          | some syn =>
            syn.equivalents.map (fun eqv =>
              String.mk (removeChar (replaceAll d.data (scrubStandard x).data eqv.data) '@'))
          | none => []
        else []) =
        syn.equivalents.map (fun eqv =>
          String.mk (removeChar (replaceAll d.data (scrubStandard w).data eqv.data) '@')) := by
      rw [flatMap_eq_filter_flatMap (p := fun x => containsSeq ['@'] x.data)
        (fun x _ hx => by rw [if_neg (by simp [hx])]), hw]
      simp only [List.flatMap_cons, List.flatMap_nil, List.append_nil]
      rw [if_pos hpw, hfind]
    rw [hflat]
    rfl
  · intro h2
    rw [hperm]
    unfold permStrings
    rw [if_pos h2]

/-- C4 witness: the repository's own `perm_valid` example — one `@family`
marker with two equivalents yields three regexes. -/
theorem C4_permutation_counts_witness :
    permutations "(.*)my (.* @family)" [⟨"family", ["brother", "mother"]⟩] (fun _ => true) =
      ["(.*)my (.* family)", "(.*)my (.* brother)", "(.*)my (.* mother)"] := by
  have h := (C4_permutation_counts "(.*)my (.* @family)" [⟨"family", ["brother", "mother"]⟩]
      (fun _ => true) (by decide)).2.1 "@family)" ⟨"family", ["brother", "mother"]⟩
      (by decide) (by decide) (by decide)
  rw [h]
  decide

theorem populate_keystack_no_match (keywords : List Keyword) :
    ∀ (phrases : List String), (∀ p ∈ phrases, collectKeywords keywords p = []) →
      populate_keystack phrases keywords = (none, []) := by
  intro phrases
  induction phrases with
  | nil => intro _; rfl
  | cons p ps ih =>
    intro h
    unfold populate_keystack
    rw [h p (by simp)]
    exact ih (fun q hq => h q (by simp [hq]))

theorem populate_keystack_first_match (keywords : List Keyword) :
    ∀ (pre : List String) (p : String) (rest : List String),
      (∀ q ∈ pre, collectKeywords keywords q = []) →
      collectKeywords keywords p ≠ [] →
      populate_keystack (pre ++ p :: rest) keywords =
        (some p, sortByRankDesc (collectKeywords keywords p)) := by
  intro pre
  induction pre with
  | nil =>
    intro p rest _ hp
    cases hc : collectKeywords keywords p with
    | nil => exact absurd hc hp
    | cons k ks =>
      rw [List.nil_append]
      unfold populate_keystack
      rw [hc]
  | cons q pre ih =>
    intro p rest hpre hp
    rw [List.cons_append]
    unfold populate_keystack
    rw [hpre q (by simp)]
    exact ih p rest (fun x hx => hpre x (by simp [hx])) hp

theorem mem_insertDesc {k b : Keyword} : ∀ {l : List Keyword},
    b ∈ insertDesc k l ↔ b = k ∨ b ∈ l := by
  intro l
  induction l with
  | nil => simp [insertDesc]
  | cons x xs ih =>
    by_cases hle : x.rank ≤ k.rank
    · rw [insertDesc, if_pos hle]
      simp only [List.mem_cons]
    · rw [insertDesc, if_neg hle]
      simp only [List.mem_cons, ih]
      tauto

theorem pairwise_insertDesc (k : Keyword) (l : List Keyword)
    (h : l.Pairwise (fun a b => b.rank ≤ a.rank)) :
    (insertDesc k l).Pairwise (fun a b => b.rank ≤ a.rank) := by
  induction l with
  | nil => simp [insertDesc]
  | cons x xs ih =>
    rcases List.pairwise_cons.mp h with ⟨hx, hxs⟩
    by_cases hle : x.rank ≤ k.rank
    · rw [insertDesc, if_pos hle]
      refine List.pairwise_cons.mpr ⟨?_, h⟩
      intro b hb
      rcases List.mem_cons.mp hb with rfl | hmem
      · exact hle
      · exact le_trans (hx b hmem) hle
    · rw [insertDesc, if_neg hle]
      refine List.pairwise_cons.mpr ⟨?_, ih hxs⟩
      intro b hb
      rcases mem_insertDesc.mp hb with rfl | hmem
      · omega
      · exact hx b hmem

theorem filter_insertDesc (k : Keyword) (n : Nat) :
    ∀ (l : List Keyword),
      (insertDesc k l).filter (fun x => x.rank = n) =
        (if k.rank = n then [k] else []) ++ l.filter (fun x => x.rank = n) := by
  intro l
  induction l with
  | nil =>
    by_cases h : k.rank = n <;> simp [insertDesc, List.filter_cons, h]
  | cons x xs ih =>
    by_cases hle : x.rank ≤ k.rank
    · rw [insertDesc, if_pos hle]
      by_cases h : k.rank = n <;> simp [List.filter_cons, h]
    · rw [insertDesc, if_neg hle]
      rw [List.filter_cons, List.filter_cons]
      by_cases hx : x.rank = n
      · have hk : ¬ k.rank = n := by omega
        simp [hx, hk, ih]
      · simp [hx, ih]

theorem filter_sortByRankDesc (n : Nat) :
    ∀ (l : List Keyword),
      (sortByRankDesc l).filter (fun x => x.rank = n) = l.filter (fun x => x.rank = n) := by
  intro l
  induction l with
  | nil => rfl
  | cons x xs ih =>
    rw [sortByRankDesc, filter_insertDesc, ih, List.filter_cons]
    by_cases h : x.rank = n <;> simp [h]

theorem sorted_sortByRankDesc :
    ∀ (l : List Keyword), (sortByRankDesc l).Pairwise (fun a b => b.rank ≤ a.rank) := by
  intro l
  induction l with
  | nil => simp [sortByRankDesc]
  | cons x xs ih => exact pairwise_insertDesc x _ ih

/-- C5: the keystack builder scans phrases in order, stops at the first phrase
any of whose whitespace words equals a keyword key, collects every keyword
occurrence of that phrase (the word-by-word `filterMap` in `collectKeywords`,
duplicates included), and sorts it stably by rank descending (sortedness plus
rank-class preservation, which together characterize the unique stable sort);
with no match anywhere it returns no active phrase and an empty stack.  The
claim's rank-ordering example evaluates to the keystack [alike, my, i, are]. -/
theorem C5_keystack (keywords : List Keyword) :
    (∀ (phrases : List String), (∀ p ∈ phrases, collectKeywords keywords p = []) →
      populate_keystack phrases keywords = (none, [])) ∧
    (∀ (pre : List String) (p : String) (rest : List String),
      (∀ q ∈ pre, collectKeywords keywords q = []) →
      collectKeywords keywords p ≠ [] →
      populate_keystack (pre ++ p :: rest) keywords =
        (some p, sortByRankDesc (collectKeywords keywords p))) ∧
    (∀ (l : List Keyword),
      (sortByRankDesc l).Pairwise (fun a b => b.rank ≤ a.rank) ∧
      ∀ (n : Nat), (sortByRankDesc l).filter (fun x => x.rank = n) =
        l.filter (fun x => x.rank = n)) ∧
    ((populate_keystack (get_phrases "i love my dog - people think we are alike")
        [⟨"i", 1, [⟨false, "", []⟩]⟩, ⟨"my", 2, [⟨false, "", []⟩]⟩,
         ⟨"are", 0, [⟨false, "", []⟩]⟩, ⟨"alike", 3, [⟨false, "", []⟩]⟩]).1 =
        some "i love my dog - people think we are alike" ∧
      ((populate_keystack (get_phrases "i love my dog - people think we are alike")
          [⟨"i", 1, [⟨false, "", []⟩]⟩, ⟨"my", 2, [⟨false, "", []⟩]⟩,
           ⟨"are", 0, [⟨false, "", []⟩]⟩, ⟨"alike", 3, [⟨false, "", []⟩]⟩]).2).map
          (fun k => k.key) = ["alike", "my", "i", "are"]) := by
  refine ⟨populate_keystack_no_match keywords, populate_keystack_first_match keywords,
    fun l => ⟨sorted_sortByRankDesc l, fun n => filter_sortByRankDesc n l⟩, by decide⟩

/-- C5 witness: the first-matching-phrase rule applied to a concrete
two-phrase split where only the second phrase holds keywords. -/
theorem C5_keystack_witness :
    populate_keystack ["spagetti meatballs", "i was feeling good today"]
        [⟨"i", 0, []⟩, ⟨"was", 0, []⟩] =
      (some "i was feeling good today",
        sortByRankDesc
          (collectKeywords [⟨"i", 0, []⟩, ⟨"was", 0, []⟩] "i was feeling good today")) :=
  (C5_keystack [⟨"i", 0, []⟩, ⟨"was", 0, []⟩]).2.1 ["spagetti meatballs"]
    "i was feeling good today" [] (by decide) (by decide)

theorem lookupU_none_iff {m : Usage} {k : String} :
    lookupU m k = none ↔ ∀ p ∈ m, p.1 ≠ k := by
  unfold lookupU
  simp [List.find?_eq_none]

theorem bumpU_append_of_not_mem {m : Usage} {k : String} (h : ∀ p ∈ m, p.1 ≠ k) (v : Nat) :
    bumpU (m ++ [(k, v)]) k = m ++ [(k, v + 1)] := by
  induction m with
  | nil => simp [bumpU]
  | cons q qs ih =>
    obtain ⟨k2, v2⟩ := q
    rw [List.cons_append, bumpU, if_neg (h (k2, v2) (by simp)), List.cons_append,
      ih (fun p hp => h p (by simp [hp]))]

theorem lookupU_bumpU_self (m : Usage) (k : String) :
    lookupU (bumpU m k) k = (lookupU m k).map (fun v => v + 1) := by
  induction m with
  | nil => simp [bumpU, lookupU]
  | cons q qs ih =>
    obtain ⟨k2, v⟩ := q
    by_cases h : k2 = k
    · subst h
      rw [bumpU, if_pos rfl]
      unfold lookupU
      rw [List.find?_cons_of_pos _ (by simp), List.find?_cons_of_pos _ (by simp)]
      rfl
    · rw [bumpU, if_neg h]
      unfold lookupU at ih ⊢
      rw [List.find?_cons_of_neg _ (by simp [h]), List.find?_cons_of_neg _ (by simp [h])]
      exact ih

theorem lookupU_bumpU_other (m : Usage) (k k2 : String) (h : k2 ≠ k) :
    lookupU (bumpU m k) k2 = lookupU m k2 := by
  induction m with
  | nil => simp [bumpU]
  | cons q qs ih =>
    obtain ⟨k3, v⟩ := q
    by_cases h3 : k3 = k
    · subst h3
      rw [bumpU, if_pos rfl]
      unfold lookupU
      rw [List.find?_cons_of_neg _ (by simp; exact fun hh => h hh.symm),
        List.find?_cons_of_neg _ (by simp; exact fun hh => h hh.symm)]
    · rw [bumpU, if_neg h3]
      by_cases h32 : k3 = k2
      · subst h32
        unfold lookupU
        rw [List.find?_cons_of_pos _ (by simp), List.find?_cons_of_pos _ (by simp)]
      · unfold lookupU at ih ⊢
        rw [List.find?_cons_of_neg _ (by simp [h32]), List.find?_cons_of_neg _ (by simp [h32])]
        exact ih

theorem grLoop_isSome (id : String) (usage : Usage) :
    ∀ (rules : List String) (b : String) (c : Option Nat),
      (grLoop id usage rules (some b) c).1.isSome := by
  intro rules
  induction rules with
  | nil => intro b c; simp [grLoop]
  | cons r rest ih =>
    intro b c
    rw [grLoop]
    cases h : lookupU usage (id ++ r) with
    | some u =>
      dsimp only
      cases c with
      | none => exact ih r (some u)
      | some cv =>
        dsimp only
        by_cases hu : u < cv
        · rw [if_pos hu]; exact ih r (some u)
        · rw [if_neg hu]; exact ih b (some cv)
    | none => simp

theorem grLoop_break (id : String) (usage : Usage) :
    ∀ (pre : List String) (t : String) (post : List String) (b : Option String)
      (c : Option Nat),
      (∀ r ∈ pre, (lookupU usage (id ++ r)).isSome) →
      lookupU usage (id ++ t) = none →
      grLoop id usage (pre ++ t :: post) b c = (some t, insertU usage (id ++ t) 0) := by
  intro pre
  induction pre with
  | nil =>
    intro t post b c _ ht
    rw [List.nil_append, grLoop, ht]
  | cons r pre ih =>
    intro t post b c hpre ht
    rw [List.cons_append, grLoop]
    obtain ⟨u, hu⟩ := Option.isSome_iff_exists.mp (hpre r (by simp))
    rw [hu]
    dsimp only
    cases c with
    | none => exact ih t post (some r) (some u) (fun x hx => hpre x (by simp [hx])) ht
    | some cv =>
      dsimp only
      by_cases hlt : u < cv
      · rw [if_pos hlt]
        exact ih t post (some r) (some u) (fun x hx => hpre x (by simp [hx])) ht
      · rw [if_neg hlt]
        exact ih t post b (some cv) (fun x hx => hpre x (by simp [hx])) ht

theorem grLoop_all_present (id : String) (usage : Usage) (cnt : String → Nat) :
    ∀ (rules : List String) (b : String),
      (∀ r ∈ rules, lookupU usage (id ++ r) = some (cnt r)) →
      grLoop id usage rules (some b) (some (cnt b)) =
        (some (firstMinAcc cnt b rules), usage) := by
  intro rules
  induction rules with
  | nil => intro b _; rfl
  | cons r rest ih =>
    intro b hall
    rw [grLoop, hall r (by simp), firstMinAcc]
    dsimp only
    by_cases hlt : cnt r < cnt b
    · rw [if_pos hlt, if_pos hlt]
      exact ih r (fun x hx => hall x (by simp [hx]))
    · rw [if_neg hlt, if_neg hlt]
      exact ih b (fun x hx => hall x (by simp [hx]))

theorem firstMinAcc_isFirstMin (cnt : String → Nat) :
    ∀ (l : List String) (b : String), isFirstMin cnt (b :: l) (firstMinAcc cnt b l) := by
  intro l
  induction l with
  | nil =>
    intro b
    exact ⟨by simp [firstMinAcc], [], [], by simp [firstMinAcc], by simp⟩
  | cons r rest ih =>
    intro b
    rw [firstMinAcc]
    by_cases hlt : cnt r < cnt b
    · rw [if_pos hlt]
      obtain ⟨hmin, pre, post, heq, hpre⟩ := ih r
      have htr : cnt (firstMinAcc cnt r rest) ≤ cnt r := hmin r (by simp)
      refine ⟨?_, b :: pre, post, ?_, ?_⟩
      · intro x hx
        rcases List.mem_cons.mp hx with rfl | hx2
        · omega
        · exact hmin x hx2
      · rw [List.cons_append, ← heq]
      · intro x hx
        rcases List.mem_cons.mp hx with rfl | hx2
        · omega
        · exact hpre x hx2
    · rw [if_neg hlt]
      obtain ⟨hmin, pre, post, heq, hpre⟩ := ih b
      have htb : cnt (firstMinAcc cnt b rest) ≤ cnt b := hmin b (by simp)
      refine ⟨?_, ?_⟩
      · intro x hx
        rcases List.mem_cons.mp hx with rfl | hx2
        · exact htb
        rcases List.mem_cons.mp hx2 with rfl | hx3
        · omega
        · exact hmin x (by simp [hx3])
      · cases pre with
        | nil =>
          rw [List.nil_append] at heq
          have hqb : b = firstMinAcc cnt b rest := (List.cons_eq_cons.mp heq).1
          exact ⟨[], r :: rest, by rw [List.nil_append, ← hqb], by simp⟩
        | cons q pre2 =>
          rw [List.cons_append] at heq
          have hq : b = q := (List.cons_eq_cons.mp heq).1
          have hrest : rest = pre2 ++ firstMinAcc cnt b rest :: post :=
            (List.cons_eq_cons.mp heq).2
          have hb : cnt (firstMinAcc cnt b rest) < cnt b := by
            have := hpre q (by simp)
            rw [← hq] at this
            exact this
          refine ⟨b :: r :: pre2, post, ?_, ?_⟩
          · rw [List.cons_append, List.cons_append, ← hrest]
          · intro x hx
            rcases List.mem_cons.mp hx with rfl | hx2
            · exact hb
            rcases List.mem_cons.mp hx2 with rfl | hx3
            · omega
            · exact hpre x (List.mem_cons_of_mem q hx3)

/-- C2: reassembly selection namespaces each template by prepending the
decomposition rule source, returns no template exactly for an empty list,
prefers the first template whose key is absent (inserting count 0 and
incrementing it to 1), and otherwise picks the first-seen minimum-count
template, incrementing only its count. -/
theorem C2_reassembly_selection (id : String) (rules : List String) (usage : Usage) :
    ((get_reassembly id rules usage).1 = none ↔ rules = []) ∧
    (∀ t : String,
      rules.find? (fun r => (lookupU usage (id ++ r)).isNone) = some t →
      get_reassembly id rules usage = (some t, insertU usage (id ++ t) 1)) ∧
    (∀ (r0 : String) (rest : List String),
      rules = r0 :: rest →
      (∀ r ∈ rules, (lookupU usage (id ++ r)).isSome) →
      ∃ t,
        get_reassembly id rules usage = (some t, bumpU usage (id ++ t)) ∧
        isFirstMin (fun r => (lookupU usage (id ++ r)).getD 0) rules t ∧
        lookupU (bumpU usage (id ++ t)) (id ++ t) =
          some ((lookupU usage (id ++ t)).getD 0 + 1) ∧
        (∀ k : String, k ≠ id ++ t →
          lookupU (bumpU usage (id ++ t)) k = lookupU usage k)) := by
  refine ⟨?_, ?_, ?_⟩
  · constructor
    · intro h
      cases hr : rules with
      | nil => rfl
      | cons r rest =>
        exfalso
        subst hr
        have hsome : (grLoop id usage (r :: rest) none none).1.isSome := by
          rw [grLoop]
          cases hl : lookupU usage (id ++ r) with
          | some u => exact grLoop_isSome id usage rest r (some u)
          | none => simp
        unfold get_reassembly at h
        obtain ⟨b, u2, hgr⟩ : ∃ b u2, grLoop id usage (r :: rest) none none = (some b, u2) := by
          rcases hgr : grLoop id usage (r :: rest) none none with ⟨b, u2⟩
          rw [hgr] at hsome
          cases b with
          | none => simp at hsome
          | some bv => exact ⟨bv, u2, rfl⟩
        rw [hgr] at h
        simp at h
    · rintro rfl
      rfl
  · intro t hfind
    rw [List.find?_eq_some] at hfind
    obtain ⟨hpt, pre, post, heq, hpre⟩ := hfind
    have ht : lookupU usage (id ++ t) = none := Option.isNone_iff_eq_none.mp hpt
    have hpres : ∀ r ∈ pre, (lookupU usage (id ++ r)).isSome := by
      intro r hr
      have := hpre r hr
      rw [Bool.not_eq_true', Option.isNone_eq_false_iff] at this
      exact this
    rw [heq]
    unfold get_reassembly
    rw [grLoop_break id usage pre t post none none hpres ht]
    have hfresh : ∀ p ∈ usage, p.1 ≠ id ++ t := lookupU_none_iff.mp ht
    show (some t, bumpU (insertU usage (id ++ t) 0) (id ++ t)) = _
    rw [show insertU usage (id ++ t) 0 = usage ++ [(id ++ t, 0)] from rfl,
      bumpU_append_of_not_mem hfresh 0]
    rfl
  · rintro r0 rest rfl hall
    set cnt : String → Nat := fun r => (lookupU usage (id ++ r)).getD 0 with hcnt
    have hall2 : ∀ r ∈ r0 :: rest, lookupU usage (id ++ r) = some (cnt r) := by
      intro r hr
      obtain ⟨v, hv⟩ := Option.isSome_iff_exists.mp (hall r hr)
      rw [hv, hcnt]
      dsimp only
      rw [hv]
      rfl
    set t : String := firstMinAcc cnt r0 rest with htdef
    have hgr : grLoop id usage (r0 :: rest) none none = (some t, usage) := by
      rw [grLoop, hall2 r0 (by simp)]
      dsimp only
      exact grLoop_all_present id usage cnt rest r0 (fun x hx => hall2 x (by simp [hx]))
    have hfm : isFirstMin cnt (r0 :: rest) t := firstMinAcc_isFirstMin cnt rest r0
    have htmem : t ∈ r0 :: rest := by
      obtain ⟨-, pre, post, heq, -⟩ := hfm
      rw [heq]
      simp
    refine ⟨t, ?_, hfm, ?_, fun k hk => lookupU_bumpU_other usage (id ++ t) k hk⟩
    · unfold get_reassembly
      rw [hgr]
    · rw [lookupU_bumpU_self, hall2 t htmem]
      rfl

/-- C2 witness: with an empty usage map the first template's key is absent,
so it is selected and its key inserted with count 1. -/
theorem C2_reassembly_selection_witness :
    get_reassembly "" ["first", "second"] [] = (some "first", insertU [] ("" ++ "first") 1) :=
  (C2_reassembly_selection "" ["first", "second"] []).2.1 "first" (by decide)

/-- C3 (amended): when a matched rule's selected template is `GOTO k` and `k`
names a script keyword, that keyword is pushed at the front of the keystack
and the search restarts at the outer keystack loop (aborting the current
keyword's remaining rules), so the next attempted rule set is `k`'s; when `k`
is unknown, that template is skipped (its usage count already incremented by
selection) and the search continues with the next regex permutation of the
current rule — the remaining templates of that match are not reconsidered.
(The error logging on the unknown branch has no observable effect and is not
modelled.)  The closed conjunct runs a full redirection: keyword `a`'s rule
selects `GOTO b`, and the response comes from `b`'s rule set. -/
theorem C3_goto_redirection :
    (∀ (o : Oracle) (script : Script) (phrase : String) (r : Rule) (re : String)
        (rest : List String) (cap : List String) (assem : String) (u2 : Usage)
        (g : String) (entry : Keyword) (st : EngState),
      o.capturesOf re phrase = some cap →
      get_reassembly r.decomposition_rule r.reassembly_rules st.rule_usage = (some assem, u2) →
      is_goto assem = some g →
      script.keywords.find? (fun a => a.key == g) = some entry →
      procRegexes o script phrase r (re :: rest) st =
        .gotoR entry { st with rule_usage := u2 }) ∧
    (∀ (o : Oracle) (script : Script) (phrase : String) (fuel : Nat) (next : Keyword)
        (rest : List Keyword) (entry : Keyword) (st st2 : EngState),
      procRules o script phrase next.rules st = .gotoR entry st2 →
      searchLoop o script phrase (fuel + 1) (next :: rest) st =
        searchLoop o script phrase fuel (entry :: rest) st2) ∧
    (∀ (o : Oracle) (script : Script) (phrase : String) (r : Rule) (re : String)
        (rest : List String) (cap : List String) (assem : String) (u2 : Usage)
        (g : String) (st : EngState),
      o.capturesOf re phrase = some cap →
      get_reassembly r.decomposition_rule r.reassembly_rules st.rule_usage = (some assem, u2) →
      is_goto assem = some g →
      script.keywords.find? (fun a => a.key == g) = none →
      procRegexes o script phrase r (re :: rest) st =
        procRegexes o script phrase r rest { st with rule_usage := u2 }) ∧
    searchLoop oracleAB scriptAB "p" 3 [kwA] ⟨[], []⟩ =
      (.found "Hi", ⟨[], [("daGOTO b", 1), ("dbHi", 1)]⟩) := by
  refine ⟨?_, ?_, ?_, ?_⟩
  · intro o script phrase r re rest cap assem u2 g entry st h1 h2 h3 h4
    rw [procRegexes, h1]
    dsimp only
    rw [h2]
    dsimp only
    rw [h3]
    dsimp only
    rw [h4]
  · intro o script phrase fuel next rest entry st st2 h
    rw [searchLoop, h]
  · intro o script phrase r re rest cap assem u2 g st h1 h2 h3 h4
    rw [procRegexes, h1]
    dsimp only
    rw [h2]
    dsimp only
    rw [h3]
    dsimp only
    rw [h4]
  · decide

/-- C3 witness: the goto-found step applied to the concrete `GOTO b` rule. -/
theorem C3_goto_redirection_witness :
    procRegexes oracleAB scriptAB "p" ⟨false, "da", ["GOTO b"]⟩ ["da"] ⟨[], []⟩ =
      .gotoR kwB ⟨[], [("daGOTO b", 1)]⟩ :=
  C3_goto_redirection.1 oracleAB scriptAB "p" ⟨false, "da", ["GOTO b"]⟩ "da" [] ["p"]
    "GOTO b" [("daGOTO b", 1)] "b" kwB ⟨[], []⟩ (by decide) (by decide) (by decide) (by decide)

/-- C7: whenever assembly succeeds under a `memorise` rule, the assembled
string is appended at the back of the memory queue and the search continues
(whereas with `memorise` false it is returned immediately); whenever a turn's
search yields no response — including when no phrase is active — `respond`
pops and returns the front of the memory queue if non-empty, otherwise a
fallback chosen by the selection oracle (a member of `script.fallbacks`), and
the literal "Go on." when the fallbacks list is empty.  Uniformity of the
random choice is delegated to the `pick` oracle. -/
theorem C7_memory_fifo (o : Oracle) (pick : List String → Option String) (script : Script)
    (fuel : Nat) (input : String) (st : EngState)
    (hpick : ∀ (l : List String) (x : String), pick l = some x → x ∈ l) :
    (∀ (phrase : String) (r : Rule) (re : String) (rest : List String) (cap : List String)
        (assem : String) (u2 : Usage) (s : String) (st0 : EngState),
      o.capturesOf re phrase = some cap →
      get_reassembly r.decomposition_rule r.reassembly_rules st0.rule_usage = (some assem, u2) →
      is_goto assem = none →
      assemble assem cap script.reflections = .ok s →
      r.memorise = true →
      procRegexes o script phrase r (re :: rest) st0 =
        procRegexes o script phrase r rest ⟨st0.memory ++ [s], u2⟩) ∧
    (∀ (phrase : String) (r : Rule) (re : String) (rest : List String) (cap : List String)
        (assem : String) (u2 : Usage) (s : String) (st0 : EngState),
      o.capturesOf re phrase = some cap →
      get_reassembly r.decomposition_rule r.reassembly_rules st0.rule_usage = (some assem, u2) →
      is_goto assem = none →
      assemble assem cap script.reflections = .ok s →
      r.memorise = false →
      procRegexes o script phrase r (re :: rest) st0 = .foundR s ⟨st0.memory, u2⟩) ∧
    (∀ (phrase : String) (ks : List Keyword) (st2 : EngState) (m : String) (ms : List String),
      populate_keystack (get_phrases (transform (toLowerString input) script.transforms))
          script.keywords = (some phrase, ks) →
      searchLoop o script phrase fuel ks st = (.noResponse, st2) →
      st2.memory = m :: ms →
      respond o pick script fuel input st = (.ok m, ⟨ms, st2.rule_usage⟩)) ∧
    (∀ (ks : List Keyword) (m : String) (ms : List String),
      populate_keystack (get_phrases (transform (toLowerString input) script.transforms))
          script.keywords = (none, ks) →
      st.memory = m :: ms →
      respond o pick script fuel input st = (.ok m, ⟨ms, st.rule_usage⟩)) ∧
    (∀ (phrase : String) (ks : List Keyword) (st2 : EngState) (f : String),
      populate_keystack (get_phrases (transform (toLowerString input) script.transforms))
          script.keywords = (some phrase, ks) →
      searchLoop o script phrase fuel ks st = (.noResponse, st2) →
      st2.memory = [] →
      pick script.fallbacks = some f →
      respond o pick script fuel input st = (.ok f, st2) ∧ f ∈ script.fallbacks) ∧
    (∀ (phrase : String) (ks : List Keyword) (st2 : EngState),
      populate_keystack (get_phrases (transform (toLowerString input) script.transforms))
          script.keywords = (some phrase, ks) →
      searchLoop o script phrase fuel ks st = (.noResponse, st2) →
      st2.memory = [] →
      script.fallbacks = [] →
      respond o pick script fuel input st = (.ok "Go on.", st2)) := by
  refine ⟨?_, ?_, ?_, ?_, ?_, ?_⟩
  · intro phrase r re rest cap assem u2 s st0 h1 h2 h3 h4 h5
    rw [procRegexes, h1]
    dsimp only
    rw [h2]
    dsimp only
    rw [h3]
    dsimp only
    rw [h4]
    dsimp only
    rw [h5]
    simp only [if_true]
  · intro phrase r re rest cap assem u2 s st0 h1 h2 h3 h4 h5
    rw [procRegexes, h1]
    dsimp only
    rw [h2]
    dsimp only
    rw [h3]
    dsimp only
    rw [h4]
    dsimp only
    rw [h5]
    simp only [Bool.false_eq_true, if_false]
  · intro phrase ks st2 m ms hpop hsearch hmem
    unfold respond
    dsimp only
    rw [hpop]
    dsimp only
    rw [hsearch]
    dsimp only
    unfold memOrFallback
    rw [hmem]
  · intro ks m ms hpop hmem
    unfold respond
    dsimp only
    rw [hpop]
    dsimp only
    unfold memOrFallback
    rw [hmem]
  · intro phrase ks st2 f hpop hsearch hmem hf
    refine ⟨?_, hpick script.fallbacks f hf⟩
    unfold respond
    dsimp only
    rw [hpop]
    dsimp only
    rw [hsearch]
    dsimp only
    unfold memOrFallback
    rw [hmem, hf]
  · intro phrase ks st2 hpop hsearch hmem hfb
    have hnone : pick script.fallbacks = none := by
      cases hp : pick script.fallbacks with
      | none => rfl
      | some x =>
        have := hpick script.fallbacks x hp
        rw [hfb] at this
        simp at this
    unfold respond
    dsimp only
    rw [hpop]
    dsimp only
    rw [hsearch]
    dsimp only
    unfold memOrFallback
    rw [hmem, hnone]

/-- C7 witness: with no keywords in the script the search yields nothing and
the memory queue is popped first-in-first-out. -/
theorem C7_memory_fifo_witness :
    respond oracleNone headPick scriptPlain 3 "hello there" ⟨["m1", "m2"], []⟩ =
      (.ok "m1", ⟨["m2"], []⟩) :=
  (C7_memory_fifo oracleNone headPick scriptPlain 3 "hello there" ⟨["m1", "m2"], []⟩
      headPick_mem).2.2.2.1 [] "m1" ["m2"] (by decide) rfl

end Eliza
